import Mathlib

/-!
Shallow embedding of the `base62num` Rust crate (`src/lib.rs`): a converter
between unsigned machine-word integers (`usize`, modelled as 64-bit) and
Base62 strings, together with proofs of the specified properties.
-/

namespace Base62num

/-- The 62-character Base62 alphabet, uppercase then lowercase then digits,
mirroring the constant `ALPHANUMERIC` in `src/lib.rs` (as its character list). -/
def ALPHANUMERIC : List Char :=
  "ABCDEFGHIJKLMNOPQRSTUVWXYZabcdefghijklmnopqrstuvwxyz0123456789".toList

/-- The radix, mirroring `const BASE: usize = 62`. -/
def BASE : Nat := 62

/-- Maximum value of the platform unsigned word `usize`, fixed at 64 bits. -/
def USIZE_MAX : Nat := 2 ^ 64 - 1

/-- Conversion errors, mirroring `enum Base62Error`. -/
inductive Base62Error where
  | NonAlphanumeric
  | Overflow
  deriving DecidableEq, Repr

/-- Rust's `Option::ok_or`: `some v` becomes `Ok v`, `none` becomes `Err e`. -/
def ok_or {α ε : Type} (o : Option α) (e : ε) : Except ε α :=
  match o with
  | some v => .ok v
  | none => .error e

/-- Rust's `str::find` with a character predicate: index of the first character
satisfying `p` (character index, which equals Rust's byte index here because the
alphabet is ASCII). -/
def strFind (p : Char → Bool) : List Char → Option Nat
  | [] => none
  | c :: rest => if p c then some 0 else (strFind p rest).map (· + 1)

/-- `to_char` from `src/lib.rs`: `ALPHANUMERIC.chars().nth(num)`. -/
def to_char (num : Nat) : Option Char :=
  ALPHANUMERIC[num]?

/-- The `while n > 0` loop of `encode`: divide by `BASE`, pushing the character
of each remainder onto `digits`; `none` models the `unreachable!` branch. -/
def encodeLoop (digits : List Char) (n : Nat) : Option (List Char) :=
  if h : n > 0 then
    let rem := n % BASE
    match to_char rem with
    | some c => encodeLoop (digits ++ [c]) ((n - rem) / BASE)
    | none => none
  else
    some digits
termination_by n
decreasing_by
  exact Nat.lt_of_le_of_lt (Nat.div_le_div_right (Nat.sub_le _ _))
    (Nat.div_lt_self h (by decide))

/-- `encode` from `src/lib.rs`: collect remainder digits, then reverse.
A `none` result would correspond to the `unreachable!` panic. -/
def encode (num : Nat) : Option String :=
  (encodeLoop [] num).map fun digits => ⟨digits.reverse⟩

/-- `to_num` from `src/lib.rs`: `ALPHANUMERIC.find(|x| x == c).ok_or(NonAlphanumeric)`. -/
def to_num (c : Char) : Except Base62Error Nat :=
  ok_or (strFind (fun x => x == c) ALPHANUMERIC) .NonAlphanumeric

/-- `usize::checked_mul` on the 64-bit model. -/
def checked_mul (a b : Nat) : Option Nat :=
  if a * b ≤ USIZE_MAX then some (a * b) else none

/-- `usize::checked_add` on the 64-bit model. -/
def checked_add (a b : Nat) : Option Nat :=
  if a + b ≤ USIZE_MAX then some (a + b) else none

/-- The closure folded over the input characters in `decode`. -/
def decodeStep (acc : Nat) (c : Char) : Except Base62Error Nat :=
  (to_num c).bind fun x =>
    ok_or ((checked_mul acc BASE).bind fun mul => checked_add mul x) .Overflow

/-- `Iterator::try_fold` specialised to the `decode` closure: left fold that
short-circuits on the first error. -/
def try_fold (acc : Nat) : List Char → Except Base62Error Nat
  | [] => .ok acc
  | c :: rest =>
    match decodeStep acc c with
    | .ok acc2 => try_fold acc2 rest
    | .error e => .error e

/-- `decode` from `src/lib.rs`. -/
def decode (input : String) : Except Base62Error Nat :=
  try_fold 0 input.toList

/-! ### Specification-side helpers -/

/-- Index of a character in the alphabet (62 when absent). -/
def charIdx (c : Char) : Nat :=
  (strFind (fun x => x == c) ALPHANUMERIC).getD 62

/-- Base-62 value accumulated over a digit string scanned left to right,
starting from `acc` (the unbounded analogue of the decode accumulator). -/
def valAux (acc : Nat) : List Char → Nat
  | [] => acc
  | c :: rest => valAux (acc * BASE + charIdx c) rest

/-- The base-62 value of a digit string. -/
def strVal (l : List Char) : Nat := valAux 0 l

/-- The digit characters of `n`, least significant first. -/
def encChars (n : Nat) : List Char :=
  if h : n > 0 then ALPHANUMERIC.getD (n % BASE) 'A' :: encChars (n / BASE) else []
termination_by n
decreasing_by
  exact Nat.div_lt_self h (by decide)

/-- The concrete decode vectors from the crate's documentation and tests. -/
theorem decode_vectors :
    decode "B9" = .ok 123 ∧ decode "H" = .ok 7 ∧
    decode "Base*62" = .error .NonAlphanumeric ∧
    decode "AStringTooLongCausesTheOverflowError" = .error .Overflow :=
  ⟨rfl, rfl, rfl, rfl⟩

/-! ### Facts about the concrete alphabet -/

deriving instance DecidableEq for Except

set_option maxRecDepth 40000 in
theorem alpha_to_num : ∀ c ∈ ALPHANUMERIC, to_num c = .ok (charIdx c) := by decide

set_option maxRecDepth 40000 in
theorem alpha_lt : ∀ c ∈ ALPHANUMERIC, charIdx c < 62 := by decide

theorem alpha_getD_charIdx : ∀ i, i < 62 → charIdx (ALPHANUMERIC.getD i 'A') = i := by decide

theorem alpha_mem_getD : ∀ i, i < 62 → ALPHANUMERIC.getD i 'A' ∈ ALPHANUMERIC := by decide

theorem alpha_to_char : ∀ i, i < 62 → to_char i = some (ALPHANUMERIC.getD i 'A') := by decide

set_option maxRecDepth 40000 in
theorem alpha_charIdx_getD : ∀ c ∈ ALPHANUMERIC, ALPHANUMERIC.getD (charIdx c) 'A' = c := by
  decide

theorem strFind_eq_none {p : Char → Bool} {l : List Char} (h : ∀ x ∈ l, p x = false) :
    strFind p l = none := by
  induction l with
  | nil => rfl
  | cons c rest ih =>
    simp only [strFind, h c (List.mem_cons_self c rest), if_false, Bool.false_eq_true]
    rw [ih fun x hx => h x (List.mem_cons_of_mem c hx)]
    rfl

theorem to_num_not_mem {c : Char} (h : c ∉ ALPHANUMERIC) :
    to_num c = .error .NonAlphanumeric := by
  unfold to_num
  rw [strFind_eq_none]
  · rfl
  · intro x hx
    exact beq_eq_false_iff_ne.mpr fun hxc => h (hxc ▸ hx)

/-- One decode step, fully characterised: a non-alphabet character yields
`NonAlphanumeric`; a valid digit yields the updated accumulator unless it
would exceed `USIZE_MAX`, in which case `Overflow`. -/
theorem decodeStep_eq (acc : Nat) (c : Char) :
    decodeStep acc c =
      if c ∈ ALPHANUMERIC then
        (if acc * BASE + charIdx c ≤ USIZE_MAX then .ok (acc * BASE + charIdx c)
         else .error .Overflow)
      else .error .NonAlphanumeric := by
  by_cases hmem : c ∈ ALPHANUMERIC
  · rw [if_pos hmem]
    unfold decodeStep
    rw [alpha_to_num c hmem]
    show ok_or ((checked_mul acc BASE).bind fun mul => checked_add mul (charIdx c)) _ = _
    by_cases hle : acc * BASE + charIdx c ≤ USIZE_MAX
    · rw [if_pos hle]
      unfold checked_mul
      rw [if_pos (Nat.le_trans (Nat.le_add_right _ _) hle)]
      show ok_or (checked_add (acc * BASE) (charIdx c)) _ = _
      unfold checked_add
      rw [if_pos hle]
      rfl
    · rw [if_neg hle]
      unfold checked_mul
      by_cases hmul : acc * BASE ≤ USIZE_MAX
      · rw [if_pos hmul]
        show ok_or (checked_add (acc * BASE) (charIdx c)) _ = _
        unfold checked_add
        rw [if_neg hle]
        rfl
      · rw [if_neg hmul]
        rfl
  · rw [if_neg hmem]
    unfold decodeStep
    rw [to_num_not_mem hmem]
    rfl

theorem decodeStep_ok_mem {acc : Nat} {c : Char} {v : Nat} (h : decodeStep acc c = .ok v) :
    c ∈ ALPHANUMERIC := by
  by_contra hmem
  rw [decodeStep_eq, if_neg hmem] at h
  exact Except.noConfusion h

/-! ### Facts about the accumulated value -/

theorem valAux_append (acc : Nat) (l1 l2 : List Char) :
    valAux acc (l1 ++ l2) = valAux (valAux acc l1) l2 := by
  induction l1 generalizing acc with
  | nil => rfl
  | cons c rest ih => exact ih (acc * BASE + charIdx c)

theorem le_valAux (acc : Nat) (l : List Char) : acc ≤ valAux acc l := by
  induction l generalizing acc with
  | nil => exact Nat.le_refl acc
  | cons c rest ih =>
    refine Nat.le_trans ?_ (ih (acc * BASE + charIdx c))
    simp only [BASE]
    omega

/-! ### Facts about `try_fold` -/

theorem try_fold_cons (acc : Nat) (c : Char) (rest : List Char) :
    try_fold acc (c :: rest) =
      match decodeStep acc c with
      | .ok acc2 => try_fold acc2 rest
      | .error e => .error e := rfl

theorem try_fold_append (acc : Nat) (l1 l2 : List Char) :
    try_fold acc (l1 ++ l2) =
      match try_fold acc l1 with
      | .ok a => try_fold a l2
      | .error e => .error e := by
  induction l1 generalizing acc with
  | nil => rfl
  | cons c rest ih =>
    rw [List.cons_append, try_fold_cons, try_fold_cons]
    cases hstep : decodeStep acc c with
    | ok acc2 => exact ih acc2
    | error e => rfl

theorem try_fold_ok {l : List Char} (hval : ∀ c ∈ l, c ∈ ALPHANUMERIC) :
    ∀ acc, valAux acc l ≤ USIZE_MAX → try_fold acc l = .ok (valAux acc l) := by
  induction l with
  | nil => intro acc _; rfl
  | cons c rest ih =>
    intro acc hle
    have hmem : c ∈ ALPHANUMERIC := hval c (List.mem_cons_self c rest)
    have hstep : acc * BASE + charIdx c ≤ USIZE_MAX :=
      Nat.le_trans (le_valAux _ rest) hle
    rw [try_fold_cons, decodeStep_eq, if_pos hmem, if_pos hstep]
    exact ih (fun x hx => hval x (List.mem_cons_of_mem c hx)) _ hle

theorem try_fold_over {l : List Char} (hval : ∀ c ∈ l, c ∈ ALPHANUMERIC) :
    ∀ acc, acc ≤ USIZE_MAX → USIZE_MAX < valAux acc l →
      try_fold acc l = .error .Overflow := by
  induction l with
  | nil =>
    intro acc hacc hover
    exact absurd hover (Nat.not_lt.mpr hacc)
  | cons c rest ih =>
    intro acc hacc hover
    have hmem : c ∈ ALPHANUMERIC := hval c (List.mem_cons_self c rest)
    rw [try_fold_cons, decodeStep_eq, if_pos hmem]
    by_cases hle : acc * BASE + charIdx c ≤ USIZE_MAX
    · rw [if_pos hle]
      exact ih (fun x hx => hval x (List.mem_cons_of_mem c hx)) _ hle hover
    · rw [if_neg hle]

theorem try_fold_ok_all_mem {l : List Char} :
    ∀ {acc v : Nat}, try_fold acc l = .ok v → ∀ c ∈ l, c ∈ ALPHANUMERIC := by
  induction l with
  | nil => intro _ _ _ c hc; exact absurd hc (List.not_mem_nil c)
  | cons c rest ih =>
    intro acc v h x hx
    rw [try_fold_cons] at h
    revert h
    cases hstep : decodeStep acc c with
    | ok acc2 =>
      intro h
      rcases List.mem_cons.mp hx with hxc | hxr
      · exact hxc ▸ decodeStep_ok_mem hstep
      · exact ih h x hxr
    | error e =>
      intro h
      exact Except.noConfusion h

theorem try_fold_error_split {l : List Char} :
    ∀ {acc0 : Nat} {e : Base62Error}, try_fold acc0 l = .error e →
      ∃ l1 c l2 acc, l = l1 ++ c :: l2 ∧ try_fold acc0 l1 = .ok acc ∧
        decodeStep acc c = .error e := by
  induction l with
  | nil => intro _ _ h; exact Except.noConfusion h
  | cons c rest ih =>
    intro acc0 e h
    rw [try_fold_cons] at h
    revert h
    cases hstep : decodeStep acc0 c with
    | ok acc2 =>
      intro h
      obtain ⟨l1, c2, l2, acc, hsplit, hok, herr⟩ := ih h
      refine ⟨c :: l1, c2, l2, acc, by rw [hsplit]; rfl, ?_, herr⟩
      rw [try_fold_cons, hstep]
      exact hok
    | error e2 =>
      intro h
      have he : e2 = e := Except.error.inj h
      exact ⟨[], c, rest, acc0, rfl, rfl, he ▸ hstep⟩

/-! ### Facts about `encChars`, `encodeLoop` and `encode` -/

theorem encChars_zero : encChars 0 = [] := by
  rw [encChars]
  simp

theorem encChars_pos {n : Nat} (h : 0 < n) :
    encChars n = ALPHANUMERIC.getD (n % BASE) 'A' :: encChars (n / BASE) := by
  rw [encChars, dif_pos h]

theorem encodeLoop_eq : ∀ n digits, encodeLoop digits n = some (digits ++ encChars n) := by
  intro n
  induction n using Nat.strong_induction_on with
  | _ n ih =>
    intro digits
    by_cases h : 0 < n
    · have hmod : n % BASE < 62 := Nat.mod_lt n (by decide)
      have hdiv : (n - n % BASE) / BASE = n / BASE := by
        have h1 : n % BASE + BASE * (n / BASE) = n := Nat.mod_add_div n BASE
        have h2 : n - n % BASE = BASE * (n / BASE) := by omega
        rw [h2, Nat.mul_div_cancel_left _ (by decide : 0 < BASE)]
      rw [encodeLoop, dif_pos h]
      show (match to_char (n % BASE) with
            | some c => encodeLoop (digits ++ [c]) ((n - n % BASE) / BASE)
            | none => none) = some (digits ++ encChars n)
      rw [alpha_to_char (n % BASE) hmod]
      show encodeLoop (digits ++ [ALPHANUMERIC.getD (n % BASE) 'A']) ((n - n % BASE) / BASE) =
        some (digits ++ encChars n)
      rw [hdiv, ih (n / BASE) (Nat.div_lt_self h (by decide)), encChars_pos h]
      simp
    · rw [Nat.eq_zero_of_not_pos h, encodeLoop]
      simp [encChars_zero]

theorem encode_eq (n : Nat) : encode n = some ⟨(encChars n).reverse⟩ := by
  unfold encode
  rw [encodeLoop_eq n []]
  rfl

theorem encChars_all_mem : ∀ n, ∀ c ∈ encChars n, c ∈ ALPHANUMERIC := by
  intro n
  induction n using Nat.strong_induction_on with
  | _ n ih =>
    by_cases h : 0 < n
    · rw [encChars_pos h]
      intro c hc
      rcases List.mem_cons.mp hc with hc1 | hc2
      · exact hc1 ▸ alpha_mem_getD (n % BASE) (Nat.mod_lt n (by decide))
      · exact ih (n / BASE) (Nat.div_lt_self h (by decide)) c hc2
    · rw [Nat.eq_zero_of_not_pos h, encChars_zero]
      intro c hc
      exact absurd hc (List.not_mem_nil c)

theorem strVal_encChars : ∀ n, strVal ((encChars n).reverse) = n := by
  intro n
  induction n using Nat.strong_induction_on with
  | _ n ih =>
    by_cases h : 0 < n
    · rw [encChars_pos h, List.reverse_cons]
      unfold strVal
      rw [valAux_append]
      have ihd := ih (n / BASE) (Nat.div_lt_self h (by decide))
      unfold strVal at ihd
      rw [ihd]
      show (n / BASE) * BASE + charIdx (ALPHANUMERIC.getD (n % BASE) 'A') = n
      rw [alpha_getD_charIdx (n % BASE) (Nat.mod_lt n (by decide))]
      simp only [BASE]
      omega
    · rw [Nat.eq_zero_of_not_pos h, encChars_zero]
      rfl

theorem encChars_len_mono : ∀ m n, n ≤ m → (encChars n).length ≤ (encChars m).length := by
  intro m
  induction m using Nat.strong_induction_on with
  | _ m ih =>
    intro n hnm
    by_cases hn : 0 < n
    · have hm : 0 < m := Nat.lt_of_lt_of_le hn hnm
      rw [encChars_pos hn, encChars_pos hm]
      simp only [List.length_cons]
      exact Nat.succ_le_succ
        (ih (m / BASE) (Nat.div_lt_self hm (by decide)) (n / BASE)
          (Nat.div_le_div_right hnm))
    · rw [Nat.eq_zero_of_not_pos hn, encChars_zero]
      exact Nat.zero_le _

/-! ### Canonical-form facts -/

theorem charIdx_A : charIdx 'A' = 0 := rfl

theorem valAux_zero_dropWhile_A (l : List Char) :
    valAux 0 l = valAux 0 (l.dropWhile (fun c => c == 'A')) := by
  induction l with
  | nil => rfl
  | cons c rest ih =>
    by_cases hc : c = 'A'
    · subst hc
      have hdrop : List.dropWhile (fun c => c == 'A') ('A' :: rest)
          = List.dropWhile (fun c => c == 'A') rest := rfl
      rw [hdrop]
      show valAux (0 * BASE + charIdx 'A') rest = _
      rw [charIdx_A]
      show valAux 0 rest = _
      exact ih
    · have hb : (c == 'A') = false := beq_eq_false_iff_ne.mpr hc
      simp only [List.dropWhile_cons, hb, Bool.false_eq_true, if_false]

theorem dropWhile_head_not {p : Char → Bool} (l : List Char) (c : Char) (rest : List Char)
    (h : l.dropWhile p = c :: rest) : p c = false := by
  induction l with
  | nil => exact List.noConfusion h
  | cons a as ih =>
    by_cases hp : p a = true
    · rw [List.dropWhile_cons_of_pos hp] at h
      exact ih h
    · rw [List.dropWhile_cons_of_neg hp] at h
      injection h with h1 h2
      subst h1
      exact Bool.eq_false_iff.mpr hp

theorem mem_of_mem_dropWhile {p : Char → Bool} (l : List Char) (c : Char)
    (h : c ∈ l.dropWhile p) : c ∈ l := by
  induction l with
  | nil => exact absurd h (List.not_mem_nil c)
  | cons a as ih =>
    by_cases hp : p a = true
    · rw [List.dropWhile_cons_of_pos hp] at h
      exact List.mem_cons_of_mem a (ih h)
    · rw [List.dropWhile_cons_of_neg hp] at h
      exact h

theorem charIdx_pos_of_ne_A {c : Char} (hmem : c ∈ ALPHANUMERIC) (hne : c ≠ 'A') :
    0 < charIdx c := by
  rcases Nat.eq_zero_or_pos (charIdx c) with h0 | hpos
  · have hgetD := alpha_charIdx_getD c hmem
    rw [h0] at hgetD
    have hA : ALPHANUMERIC.getD 0 'A' = 'A' := by decide
    rw [hA] at hgetD
    exact absurd hgetD.symm hne
  · exact hpos

theorem strVal_head_pos (c : Char) (rest : List Char) (hmem : c ∈ ALPHANUMERIC)
    (hne : c ≠ 'A') : 0 < strVal (c :: rest) := by
  unfold strVal
  show 0 < valAux (0 * BASE + charIdx c) rest
  refine Nat.lt_of_lt_of_le ?_ (le_valAux _ rest)
  have hpos := charIdx_pos_of_ne_A hmem hne
  simp only [BASE]
  omega

/-- A valid digit string with no leading zero-digit character is exactly the
(reversed) digit sequence that `encode` produces for its value. -/
theorem encChars_strVal_canon :
    ∀ l : List Char, (∀ c ∈ l, c ∈ ALPHANUMERIC) → l.head? ≠ some 'A' →
      strVal l ≤ USIZE_MAX → encChars (strVal l) = l.reverse := by
  intro l
  induction l using List.reverseRecOn with
  | nil => intro _ _ _; exact encChars_zero
  | append_singleton xs x ih =>
    intro hval hhead hle
    have hxmem : x ∈ ALPHANUMERIC := hval x (List.mem_append_right xs (List.mem_cons_self x []))
    have hxlt : charIdx x < 62 := alpha_lt x hxmem
    have hsv : strVal (xs ++ [x]) = strVal xs * BASE + charIdx x := by
      unfold strVal
      rw [valAux_append]
      rfl
    have hxsval : ∀ c ∈ xs, c ∈ ALPHANUMERIC := fun c hc => hval c (List.mem_append_left _ hc)
    have hxshead : xs.head? ≠ some 'A' := by
      cases xs with
      | nil => simp
      | cons c rest =>
        simp only [List.cons_append, List.head?_cons] at hhead ⊢
        exact hhead
    have hpos : 0 < strVal xs * BASE + charIdx x := by
      cases xs with
      | nil =>
        have hxA : x ≠ 'A' := by
          simp only [List.nil_append, List.head?_cons] at hhead
          intro hx
          exact hhead (by rw [hx])
        have hcpos := charIdx_pos_of_ne_A hxmem hxA
        have h0 : strVal ([] : List Char) = 0 := rfl
        rw [h0]
        simp only [BASE]
        omega
      | cons c rest =>
        have hcmem : c ∈ ALPHANUMERIC := hxsval c (List.mem_cons_self c rest)
        have hcA : c ≠ 'A' := by
          simp only [List.head?_cons] at hxshead
          intro hx
          exact hxshead (by rw [hx])
        have hspos := strVal_head_pos c rest hcmem hcA
        simp only [BASE] at hspos ⊢
        omega
    have hmod : (strVal xs * BASE + charIdx x) % BASE = charIdx x := by
      simp only [BASE] at hxlt ⊢
      omega
    have hdiv : (strVal xs * BASE + charIdx x) / BASE = strVal xs := by
      simp only [BASE] at hxlt ⊢
      omega
    have hxsle : strVal xs ≤ USIZE_MAX := by
      rw [hsv] at hle
      simp only [BASE] at hle ⊢
      omega
    rw [hsv, encChars_pos hpos, hmod, hdiv, alpha_charIdx_getD x hxmem,
      ih hxsval hxshead hxsle, List.reverse_append]
    rfl

/-! ### The specified properties -/

/-- C1: Round-trip — for every unsigned machine-word integer `n` other than
zero, `decode` applied to the string produced by `encode n` returns `Ok n`. -/
theorem decode_encode_roundtrip (n : Nat) (hpos : 0 < n) (hle : n ≤ USIZE_MAX) :
    ∃ s : String, encode n = some s ∧ decode s = .ok n := by
  refine ⟨⟨(encChars n).reverse⟩, encode_eq n, ?_⟩
  have hval : ∀ c ∈ (encChars n).reverse, c ∈ ALPHANUMERIC := fun c hc =>
    encChars_all_mem n c (List.mem_reverse.mp hc)
  have hv : strVal ((encChars n).reverse) = n := strVal_encChars n
  have hle2 : valAux 0 ((encChars n).reverse) ≤ USIZE_MAX := by
    show strVal ((encChars n).reverse) ≤ USIZE_MAX
    rw [hv]
    exact hle
  show try_fold 0 ((encChars n).reverse) = .ok n
  rw [try_fold_ok hval 0 hle2]
  exact congrArg Except.ok hv

theorem decode_encode_roundtrip_witness :
    ∃ s : String, encode 7 = some s ∧ decode s = .ok 7 :=
  decode_encode_roundtrip 7 (by decide) (by decide)

/-- C2: Zero edge case — `encode 0` is the empty string (not `"A"`), and
`decode ""` is `Ok 0`, so zero round-trips through the empty encoding. -/
theorem encode_zero_empty : encode 0 = some "" ∧ decode "" = .ok 0 := by
  constructor
  · rw [encode_eq 0, encChars_zero]
    rfl
  · rfl

/-- C3: Error priority — once the scan reaches a character outside the
alphabet (all earlier characters having been folded successfully), the result
is `NonAlphanumeric` regardless of what follows; and an `Overflow` result
always originates at a step whose character is a valid alphabet member, all
characters before it having been folded successfully. -/
theorem decode_error_priority :
    (∀ (l1 : List Char) (c : Char) (l2 : List Char) (acc : Nat),
        try_fold 0 l1 = .ok acc → c ∉ ALPHANUMERIC →
        decode ⟨l1 ++ c :: l2⟩ = .error .NonAlphanumeric) ∧
    (∀ l : List Char, decode ⟨l⟩ = .error .Overflow →
        ∃ l1 c l2 acc, l = l1 ++ c :: l2 ∧ try_fold 0 l1 = .ok acc ∧
          (∀ x ∈ l1, x ∈ ALPHANUMERIC) ∧
          c ∈ ALPHANUMERIC ∧ decodeStep acc c = .error .Overflow) := by
  constructor
  · intro l1 c l2 acc hok hmem
    show try_fold 0 (l1 ++ c :: l2) = .error .NonAlphanumeric
    rw [try_fold_append, hok]
    show try_fold acc (c :: l2) = .error .NonAlphanumeric
    rw [try_fold_cons, decodeStep_eq, if_neg hmem]
  · intro l hover
    obtain ⟨l1, c, l2, acc, hsplit, hok, herr⟩ :=
      try_fold_error_split hover
    refine ⟨l1, c, l2, acc, hsplit, hok, try_fold_ok_all_mem hok, ?_, herr⟩
    by_contra hmem
    rw [decodeStep_eq, if_neg hmem] at herr
    exact Base62Error.noConfusion (Except.error.inj herr)

theorem decode_error_priority_witness :
    decode ⟨['B'] ++ '*' :: []⟩ = .error .NonAlphanumeric :=
  decode_error_priority.1 ['B'] '*' [] 1 (by rfl) (by decide)

/-- C4 counterexample: a string that contains a character outside the alphabet
(`'*'`) on which `decode` does not return `NonAlphanumeric`, because the
accumulator overflows before the scan reaches the invalid character. -/
theorem decode_nonalpha_counterexample :
    ('*' ∈ "AStringTooLongCausesTheOverflowError*".toList ∧ '*' ∉ ALPHANUMERIC) ∧
    decode "AStringTooLongCausesTheOverflowError*" ≠ .error .NonAlphanumeric := by
  refine ⟨⟨by decide, by decide⟩, ?_⟩
  intro h
  have hov : decode "AStringTooLongCausesTheOverflowError*" = .error .Overflow := rfl
  rw [hov] at h
  exact Base62Error.noConfusion (Except.error.inj h)

/-- C4 (amended): a string containing a character outside the alphabet always
fails to decode; the error is `NonAlphanumeric` when the prefix before the
first invalid character accumulates without overflow, `Overflow` otherwise. -/
theorem decode_invalid_char (l1 : List Char) (c : Char) (l2 : List Char)
    (hval : ∀ x ∈ l1, x ∈ ALPHANUMERIC) (hc : c ∉ ALPHANUMERIC) :
    decode ⟨l1 ++ c :: l2⟩ =
      .error (if strVal l1 ≤ USIZE_MAX then .NonAlphanumeric else .Overflow) := by
  by_cases hle : strVal l1 ≤ USIZE_MAX
  · rw [if_pos hle]
    have hok : try_fold 0 l1 = .ok (valAux 0 l1) := try_fold_ok hval 0 hle
    show try_fold 0 (l1 ++ c :: l2) = .error .NonAlphanumeric
    rw [try_fold_append, hok]
    show try_fold (valAux 0 l1) (c :: l2) = .error .NonAlphanumeric
    rw [try_fold_cons, decodeStep_eq, if_neg hc]
  · rw [if_neg hle]
    have hov : try_fold 0 l1 = .error .Overflow :=
      try_fold_over hval 0 (Nat.zero_le _) (Nat.not_le.mp hle)
    show try_fold 0 (l1 ++ c :: l2) = .error .Overflow
    rw [try_fold_append, hov]

theorem decode_invalid_char_witness :
    decode ⟨['B', '*', '9']⟩ = .error .NonAlphanumeric :=
  decode_invalid_char ['B'] '*' ['9'] (by decide) (by decide)

/-- C5: an all-alphabet string whose accumulated base-62 value exceeds
`USIZE_MAX` decodes to `Overflow`, the failure occurring at the first
multiply-by-62/add-digit step whose result would exceed the maximum. -/
theorem decode_overflow (l : List Char) (hval : ∀ c ∈ l, c ∈ ALPHANUMERIC)
    (hover : USIZE_MAX < strVal l) :
    decode ⟨l⟩ = .error .Overflow ∧
    ∃ l1 c l2 acc, l = l1 ++ c :: l2 ∧ try_fold 0 l1 = .ok acc ∧
      USIZE_MAX < acc * BASE + charIdx c ∧ decodeStep acc c = .error .Overflow := by
  have hov : try_fold 0 l = .error .Overflow := try_fold_over hval 0 (Nat.zero_le _) hover
  refine ⟨hov, ?_⟩
  obtain ⟨l1, c, l2, acc, hsplit, hok, herr⟩ := try_fold_error_split hov
  refine ⟨l1, c, l2, acc, hsplit, hok, ?_, herr⟩
  by_cases hmem : c ∈ ALPHANUMERIC
  · rw [decodeStep_eq, if_pos hmem] at herr
    by_cases hle2 : acc * BASE + charIdx c ≤ USIZE_MAX
    · rw [if_pos hle2] at herr
      exact Except.noConfusion herr
    · exact Nat.not_le.mp hle2
  · rw [decodeStep_eq, if_neg hmem] at herr
    exact absurd (Except.error.inj herr) (fun hh => Base62Error.noConfusion hh)

theorem decode_overflow_witness :
    decode ⟨List.replicate 11 '9'⟩ = .error .Overflow ∧
    ∃ l1 c l2 acc, List.replicate 11 '9' = l1 ++ c :: l2 ∧ try_fold 0 l1 = .ok acc ∧
      USIZE_MAX < acc * BASE + charIdx c ∧ decodeStep acc c = .error .Overflow :=
  decode_overflow (List.replicate 11 '9') (by decide) (by decide)

/-- C6: canonical re-encoding — decoding an all-alphabet, non-overflowing
string and re-encoding the value yields the string with its leading
zero-digit characters (`'A'`) removed (the empty string when it denotes 0). -/
theorem encode_decode_canonical (l : List Char) (hval : ∀ c ∈ l, c ∈ ALPHANUMERIC)
    (hle : strVal l ≤ USIZE_MAX) :
    ∃ v, decode ⟨l⟩ = .ok v ∧
      encode v = some ⟨l.dropWhile (fun c => c == 'A')⟩ := by
  refine ⟨strVal l, try_fold_ok hval 0 hle, ?_⟩
  rw [encode_eq]
  have hdrop : strVal l = strVal (l.dropWhile (fun c => c == 'A')) :=
    valAux_zero_dropWhile_A l
  have hcanon : encChars (strVal (l.dropWhile (fun c => c == 'A')))
      = (l.dropWhile (fun c => c == 'A')).reverse := by
    apply encChars_strVal_canon
    · intro c hc
      exact hval c (mem_of_mem_dropWhile l c hc)
    · cases hd : l.dropWhile (fun c => c == 'A') with
      | nil => simp
      | cons c rest =>
        have hnot := dropWhile_head_not l c rest hd
        simp only [List.head?_cons]
        intro hh
        rw [Option.some.inj hh] at hnot
        exact absurd hnot (by decide)
    · rw [← hdrop]
      exact hle
  rw [hdrop, hcanon, List.reverse_reverse]

theorem encode_decode_canonical_witness :
    ∃ v, decode ⟨['A', 'B', '9']⟩ = .ok v ∧
      encode v = some ⟨['A', 'B', '9'].dropWhile (fun c => c == 'A')⟩ :=
  encode_decode_canonical ['A', 'B', '9'] (by decide) (by decide)

set_option maxRecDepth 40000 in
/-- C7: the alphabet is uppercase A-Z at indices 0-25, lowercase a-z at
26-51, digits 0-9 at 52-61, and every one of the 62 symbols, decoded as a
single-character string, yields its own index. -/
theorem alphabet_contract :
    ALPHANUMERIC.length = 62 ∧
    (∀ i, i < 26 → ALPHANUMERIC.getD i ' ' = Char.ofNat (65 + i)) ∧
    (∀ i, i < 52 → 26 ≤ i → ALPHANUMERIC.getD i ' ' = Char.ofNat (97 + (i - 26))) ∧
    (∀ i, i < 62 → 52 ≤ i → ALPHANUMERIC.getD i ' ' = Char.ofNat (48 + (i - 52))) ∧
    (∀ i, i < 62 → decode ⟨[ALPHANUMERIC.getD i ' ']⟩ = .ok i) := by
  refine ⟨rfl, by decide, by decide, by decide, by decide⟩

theorem alphabet_contract_witness :
    decode ⟨[ALPHANUMERIC.getD 7 ' ']⟩ = .ok 7 :=
  alphabet_contract.2.2.2.2 7 (by decide)

/-- C8: length monotonicity — `a < b` implies the encoding of `a` is no
longer than the encoding of `b`. -/
theorem encode_length_monotone (a b : Nat) (hab : a < b) :
    ∃ sa sb, encode a = some sa ∧ encode b = some sb ∧ sa.length ≤ sb.length := by
  refine ⟨⟨(encChars a).reverse⟩, ⟨(encChars b).reverse⟩, encode_eq a, encode_eq b, ?_⟩
  show ((encChars a).reverse).length ≤ ((encChars b).reverse).length
  rw [List.length_reverse, List.length_reverse]
  exact encChars_len_mono b a (Nat.le_of_lt hab)

theorem encode_length_monotone_witness :
    ∃ sa sb, encode 7 = some sa ∧ encode 123 = some sb ∧ sa.length ≤ sb.length :=
  encode_length_monotone 7 123 (by decide)

/-- C9: totality of encode — for every input the loop's alphabet lookup
succeeds (the `unreachable!` branch is never taken) and `encode` returns a
string. -/
theorem encode_total (n : Nat) :
    (∀ digits, (encodeLoop digits n).isSome = true) ∧ ∃ s, encode n = some s := by
  constructor
  · intro digits
    rw [encodeLoop_eq n digits]
    rfl
  · exact ⟨⟨(encChars n).reverse⟩, encode_eq n⟩

/-- C10: decode accepts non-canonical encodings — prepending the zero-digit
character `'A'` never changes the result of decode, and a string of any
number of `'A'` characters decodes to `Ok 0`, never overflowing. -/
theorem decode_leading_A :
    (∀ s : String, decode ⟨'A' :: s.toList⟩ = decode s) ∧
    (∀ k : Nat, decode ⟨List.replicate k 'A'⟩ = .ok 0) := by
  have hstep : ∀ l : List Char, try_fold 0 ('A' :: l) = try_fold 0 l := by
    intro l
    rw [try_fold_cons]
    have h0 : decodeStep 0 'A' = .ok 0 := rfl
    rw [h0]
  constructor
  · intro s
    show try_fold 0 ('A' :: s.toList) = try_fold 0 s.toList
    exact hstep s.toList
  · intro k
    induction k with
    | zero => rfl
    | succ k ih =>
      show try_fold 0 ('A' :: List.replicate k 'A') = .ok 0
      rw [hstep]
      exact ih

end Base62num
